import Mathlib

/-!
Shallow embedding of the classification-and-layout engine of the
literature-review visualizer (src/ris_parser.py and
src/overlap_calculator.py), together with proofs settling the frozen
claims about it.

The RIS file content is modelled as a `String`; the Python code splits it
with `re.split(r'^ER\s+-\s*$', content, flags=re.MULTILINE)`, which we model
line-by-line: the content is split into lines on `\n` and a record boundary
is a whole line matching `ER\s+-\s*`.  (The exotic corner where `\s+` of the
regex swallows a newline so a match spans two physical lines is not modelled;
no claim depends on it.)  Python whitespace/upper-case character classes are
modelled by the corresponding ASCII Lean predicates.
-/

namespace LitReview

/-- Python `\s` on the characters that occur in RIS lines. -/
def isWS (c : Char) : Bool := c.isWhitespace

/-- Character class `[A-Z0-9]` of the field-tag regex. -/
def isTagChar (c : Char) : Bool := (c.isUpper) || (c.isDigit)

/-- Python `str.strip()` (for the ASCII whitespace that occurs in RIS data). -/
def pyStrip (s : String) : String :=
  String.mk (((s.toList.dropWhile isWS).reverse.dropWhile isWS).reverse)

/-- Python `str.rstrip()`. -/
def pyRStrip (s : String) : String :=
  String.mk ((s.toList.reverse.dropWhile isWS).reverse)

/-- Python `str.lower()` (ASCII). -/
def pyLower (s : String) : String := String.mk (s.toList.map Char.toLower)

/-- Split a character list at every occurrence of a separator character. -/
def splitCh (sep : Char) : List Char → List (List Char)
  | [] => [[]]
  | c :: cs =>
    if c = sep then [] :: splitCh sep cs
    else
      match splitCh sep cs with
      | [] => [[c]]
      | r :: rs => (c :: r) :: rs

/-- Python `str.split(sep)` for a one-character separator (`'\n'`, `','`). -/
def pySplit (sep : Char) (s : String) : List String := (splitCh sep s.toList).map String.mk

/-- Python `str.endswith('ER')`. -/
def strEndsWithER (s : String) : Bool :=
  match s.toList.reverse with
  | 'R' :: 'E' :: _ => true
  | _ => false

/-- The part of the field-line regex `^([A-Z0-9]{2,3})\s+-\s+(.+)$` that follows
the tag: at least one whitespace, a dash, at least one whitespace, then a
non-empty value.  When the remainder after the dash is all whitespace of
length ≥ 2, the regex backtracks and `(.+)` captures the final whitespace
character (this cannot happen on the rstripped lines the code feeds in, but
is kept for fidelity). -/
def parseAfterTag (tag : List Char) (rest : List Char) : Option (String × String) :=
  let s1 := rest.span isWS
  if s1.1.isEmpty then none
  else
    match s1.2 with
    | '-' :: r2 =>
      let s2 := r2.span isWS
      match s2.2 with
      | [] =>
        match s2.1.reverse with
        | _ :: c :: _ => some (String.mk tag, String.mk [c])
        | _ => none
      | r3 =>
        if s2.1.isEmpty then none else some (String.mk tag, String.mk r3)
    | _ => none

/-- `re.match(r'^([A-Z0-9]{2,3})\s+-\s+(.+)$', line)` (rs_parser line 109):
returns the field tag and the raw value when the line starts a new field. -/
def matchFieldLine (line : String) : Option (String × String) :=
  match line.toList with
  | a :: b :: rest =>
    if isTagChar a && isTagChar b then
      match rest with
      | c :: rest2 =>
        if isTagChar c then parseAfterTag [a, b, c] rest2
        else parseAfterTag [a, b] (c :: rest)
      | [] => none
    else none
  | _ => none

/-- A whole line matching the record terminator regex `^ER\s+-\s*$`
(ris_parser line 77). -/
def isSentinelLine (line : String) : Bool :=
  match line.toList with
  | 'E' :: 'R' :: rest =>
    let s1 := rest.span isWS
    if s1.1.isEmpty then false
    else
      match s1.2 with
      | '-' :: r2 => r2.all isWS
      | _ => false
  | _ => false

/-- `re.split` of the content's lines on the sentinel lines: one piece before
each sentinel, plus the final piece. -/
def splitRecords : List String → List (List String)
  | [] => [[]]
  | l :: ls =>
    if isSentinelLine l then [] :: splitRecords ls
    else
      match splitRecords ls with
      | [] => [[l]]
      | r :: rs => (l :: r) :: rs

/-- Grouping of a record's lines into `(field tag, value)` pairs, in order
(`RISParser._parse_record`, lines 99–125): a line matching the field regex
starts a field, any other non-blank line is a newline-joined continuation,
and the pending field is flushed when a new field starts and at the end. -/
def collectFields : List String → Option String → List String → List (String × String)
  | [], none, _ => []
  | [], some f, acc => [(f, String.intercalate "\n" acc)]
  | l :: ls, cur, acc =>
    let l' := pyRStrip l
    if l' = "" then collectFields ls cur acc
    else
      match matchFieldLine l' with
      | some fv =>
        match cur with
        | some f => (f, String.intercalate "\n" acc) :: collectFields ls (some fv.1) [fv.2]
        | none => collectFields ls (some fv.1) [fv.2]
      | none =>
        match cur with
        | some f => collectFields ls (some f) (acc ++ [l'])
        | none => collectFields ls none acc

/-- `record.strip().split('\n')` followed by the field-grouping loop. -/
def recordFields (recLines : List String) : List (String × String) :=
  collectFields (pySplit '\n' (pyStrip (String.intercalate "\n" recLines))) none []

/-- A Python paper id is an `int` or a `str` (`ris_parser` lines 175–187). -/
inductive PaperId where
  | int (n : Int)
  | str (s : String)
deriving DecidableEq, Repr

/-- Python truthiness of an id value: `0` and `""` are falsy. -/
def pyTruthyId : PaperId → Bool
  | .int n => n != 0
  | .str s => s != ""

/-- Python truthiness of `paper.id` (initially `None`). -/
def pyTruthyOptId : Option PaperId → Bool
  | none => false
  | some v => pyTruthyId v

/-- The `Paper` entity of `ris_parser.py` (lines 11–31). -/
structure Paper where
  id : Option PaperId := none
  title : String := ""
  year : Option Nat := none
  abstract : String := ""
  authors : List String := []
  doi : String := ""
  unique_search_terms : List String := []
  branch_terms : List String := []
  pdf_path : String := ""
  database : String := ""
  journal : String := ""
  volume : String := ""
  issue : String := ""
  pages : String := ""
  url : String := ""
  keywords : List String := []
deriving DecidableEq, Repr

/-- Digit run of Python `int(...)`: digits with single underscores allowed
between digits (`int("1_0") = 10`). -/
def pyIntGo (acc : Nat) : List Char → Option Nat
  | [] => some acc
  | c :: cs =>
    if c.isDigit then pyIntGo (acc * 10 + (c.toNat - 48)) cs
    else if c = '_' then
      match cs with
      | d :: cs2 => if d.isDigit then pyIntGo (acc * 10 + (d.toNat - 48)) cs2 else none
      | [] => none
    else none

def pyIntDigits : List Char → Option Nat
  | [] => none
  | c :: cs => if c.isDigit then pyIntGo (c.toNat - 48) cs else none

/-- Python `int(value)` on an already-stripped string (sign plus digit run);
`none` models the `ValueError` branch. -/
def pyInt (s : String) : Option Int :=
  match s.toList with
  | '+' :: cs => (pyIntDigits cs).map Int.ofNat
  | '-' :: cs => (pyIntDigits cs).map (fun n => -(Int.ofNat n))
  | cs => (pyIntDigits cs).map Int.ofNat

/-- `try: paper.id = int(value) except ValueError: paper.id = value`. -/
def parseIdValue (s : String) : PaperId :=
  match pyInt s with
  | some n => .int n
  | none => .str s

/-- `re.search(r'\d{4}', value)`: the first run of four consecutive digits. -/
def findYear : List Char → Option Nat
  | a :: b :: c :: d :: rest =>
    if a.isDigit && b.isDigit && c.isDigit && d.isDigit then
      some ((((a.toNat - 48) * 10 + (b.toNat - 48)) * 10 + (c.toNat - 48)) * 10 + (d.toNat - 48))
    else findYear (b :: c :: d :: rest)
  | _ => none

/-- `[t.strip() for t in value.split(',') if t.strip()]`. -/
def commaSplitClean (s : String) : List String :=
  ((pySplit ',' s).map pyStrip).filter (fun t => t ≠ "")

/-- The RN cleanup of `_set_field` (lines 155–158): strip, then drop a
trailing literal `ER` (two characters) and strip again. -/
def rnClean (v : String) : String :=
  let cv := pyStrip v
  if strEndsWithER cv then pyStrip (cv.dropRight 2) else cv

/-- `RISParser._set_field` (lines 129–187): dispatch on the field tag. -/
def setField (p : Paper) (tag rawValue : String) : Paper :=
  let value := pyStrip rawValue
  if tag = "TI" then { p with title := value }
  else if tag = "PY" then
    match findYear value.toList with
    | some y => { p with year := some y }
    | none => p
  else if tag = "AB" then { p with abstract := value }
  else if tag = "AU" then { p with authors := p.authors ++ [value] }
  else if tag = "DO" then { p with doi := value }
  else if tag = "N1" then { p with unique_search_terms := commaSplitClean value }
  else if tag = "RN" then { p with branch_terms := commaSplitClean (rnClean value) }
  else if tag = "L1" then { p with pdf_path := value }
  else if tag = "T2" then { p with journal := value }
  else if tag = "VL" then { p with volume := value }
  else if tag = "IS" then { p with issue := value }
  else if tag = "SP" then { p with pages := value }
  else if tag = "UR" then { p with url := value }
  else if tag = "KW" then { p with keywords := p.keywords ++ [value] }
  else if tag = "ID" then { p with id := some (parseIdValue value) }
  else if tag = "LB" then
    if pyTruthyOptId p.id then p else { p with id := some (parseIdValue value) }
  else p

/-- Fold the fields of one record over an empty paper. -/
def applyFields (fields : List (String × String)) : Paper :=
  fields.foldl (fun p f => setField p f.1 f.2) {}

/-- `RISParser._parse_record` on a record's lines. -/
def parseRecordLines (recLines : List String) : Paper :=
  applyFields (recordFields recLines)

/-- `if not record.strip(): continue` — the record is all whitespace. -/
def isBlankRecord (recLines : List String) : Bool :=
  pyStrip (String.intercalate "\n" recLines) = ""

/-- Loop body of `RISParser.parse` (lines 79–90): drop blank records, drop
records without a title, stamp the database, and give papers whose id is
missing (or Python-falsy) the fallback `paper_<n>` id, with the counter
advanced only when used. -/
def risParseGo (db : String) : List (List String) → Nat → List Paper
  | [], _ => []
  | r :: rs, n =>
    if isBlankRecord r then risParseGo db rs n
    else
      let p := parseRecordLines r
      if p.title ≠ "" then
        if pyTruthyOptId p.id then
          { p with database := db } :: risParseGo db rs n
        else
          { p with database := db, id := some (.str ("paper_" ++ toString n)) } ::
            risParseGo db rs (n + 1)
      else risParseGo db rs n

/-- `RISParser.parse` (lines 68–92) on the file content, with the database
name (derived from the file name outside this function) passed in. -/
def risParse (db : String) (content : String) : List Paper :=
  risParseGo db (splitRecords (pySplit '\n' content)) 1

/-! ## Term canonicalizer (`overlap_calculator.py`) -/

/-- `sum(1 for c in t if c.isupper())`. -/
def upperCount (s : String) : Nat := s.toList.countP Char.isUpper

/-- `OverlapCalculator._get_canonical_term` (lines 32–45):
`max(term_variants, key=...)`, which keeps the first element on ties. -/
def getCanonicalTerm : List String → Option String
  | [] => none
  | x :: xs => some (xs.foldl (fun cur y => if upperCount cur < upperCount y then y else cur) x)

/-- First-match association-list lookup (Python `dict` access by key). -/
def alookup {α : Type} (k : String) : List (String × α) → Option α
  | [] => none
  | e :: rest => if e.1 = k then some e.2 else alookup k rest

/-- One step of variant collection (`load_papers_from_queries` lines 82–84):
`if branch_term not in term_variants[normalized]: append`.  Keys appear in
first-seen order, values in first-seen order. -/
def addVariant (m : List (String × List String)) (t : String) : List (String × List String) :=
  let k := pyLower t
  match alookup k m with
  | some vs =>
    if t ∈ vs then m
    else m.map (fun e => if e.1 = k then (e.1, e.2 ++ [t]) else e)
  | none => m ++ [(k, [t])]

/-- The per-query variant table built from the stream of branch terms. -/
def collectVariants (tags : List String) : List (String × List String) :=
  tags.foldl addVariant []

/-- `canonical_term_map` (lines 86–92): lowercased form → canonical form. -/
def canonMapOf (tags : List String) : List (String × String) :=
  (collectVariants tags).map (fun e => (e.1, (getCanonicalTerm e.2).getD ""))

/-- `canonical_term_map[query_name].get(normalized, branch_term)` (line 106). -/
def canonicalizeTag (cmap : List (String × String)) (t : String) : String :=
  (alookup (pyLower t) cmap).getD t

/-- Rewriting every tag of a stream through the table built from that stream. -/
def canonicalizeTags (tags : List String) : List String :=
  tags.map (canonicalizeTag (canonMapOf tags))

/-! ## Hierarchy builder -/

/-- `defaultdict(list)` append at a key: extend the existing bucket or create
a fresh singleton bucket at the end. -/
def bucketAppend {α : Type} (m : List (String × List α)) (k : String) (x : α) :
    List (String × List α) :=
  match alookup k m with
  | some _ => m.map (fun e => if e.1 = k then (e.1, e.2 ++ [x]) else e)
  | none => m ++ [(k, [x])]

/-- Bucket contents at a key (missing key reads as the empty bucket). -/
def bucketOf {α : Type} (m : List (String × List α)) (k : String) : List α :=
  (alookup k m).getD []

/-- Second pass of `load_papers_from_queries` (lines 100–111) for one paper:
append it under the canonical form of each of its branch terms, or under
`"uncategorized"` when its tag list is empty. -/
def addPaperToGrouping (cmap : List (String × String)) (m : List (String × List Paper))
    (p : Paper) : List (String × List Paper) :=
  if p.branch_terms.isEmpty then bucketAppend m "uncategorized" p
  else p.branch_terms.foldl (fun m t => bucketAppend m (canonicalizeTag cmap t) p) m

/-- The branch-term stream of a query's papers, in encounter order
(lines 79–84). -/
def branchTagStream (papers : List Paper) : List String :=
  (papers.map (fun p => p.branch_terms)).flatten

/-- `papers_by_query_and_branch[query]` built for one query's papers. -/
def groupPapers (papers : List Paper) : List (String × List Paper) :=
  papers.foldl (addPaperToGrouping (canonMapOf (branchTagStream papers))) []

/-! ## Cross-reference matcher -/

/-- `OverlapCalculator._normalize_text` (lines 115–119). -/
def normText (s : String) : String := pyStrip (pyLower s)

/-- The per-paper test of `_match_paper` (lines 139–142): title match or
DOI match, both sides non-empty after normalization. -/
def paperMatchB (item p : Paper) : Bool :=
  (normText item.title != "" && normText p.title != ""
      && normText item.title == normText p.title)
  || (normText item.doi != "" && normText p.doi != ""
      && normText item.doi == normText p.doi)

/-- `OverlapCalculator._match_paper` (lines 121–144): the first paper of
`all_papers` matching by title or DOI. -/
def matchPaper (allPapers : List Paper) (item : Paper) : Option Paper :=
  allPapers.find? (fun p => paperMatchB item p)

/-- The target-query search of `load_most_cited_papers` (lines 185–197):
the first query of the hierarchy one of whose buckets contains the paper. -/
def findTargetQuery (hier : List (String × List (String × List Paper))) (p : Paper) :
    Option String :=
  (hier.find? (fun qb => qb.2.any (fun b => b.2.any (fun q => decide (q = p))))).map
    (fun qb => qb.1)

/-- `branch_term_counts[query]` (lines 162–168): bucket key → bucket size,
computed from the base hierarchy before any curated paper is filed. -/
def countsOfQuery (hier : List (String × List (String × List Paper))) (q : String) :
    List (String × Nat) :=
  ((alookup q hier).getD []).map (fun b => (b.1, b.2.length))

/-- Case-insensitive resolution of a curated tag against the existing bucket
keys (lines 206–211): the first key whose lowercasing equals `normalized`. -/
def findMatchingCanonical (counts : List (String × Nat)) (normalized : String) :
    Option String :=
  (counts.find? (fun e => pyLower e.1 == normalized)).map (fun e => e.1)

/-- `count < min_count` with `min_count` starting at `float('inf')`. -/
def ltInfB (c : Nat) : Option Nat → Bool
  | none => true
  | some m => c < m

/-- The selection loop of `load_most_cited_papers` (lines 199–217): walk the
curated item's tags, resolve each, and keep the resolved key whose bucket
count strictly improves on the minimum so far. -/
def selectGo (counts : List (String × Nat)) :
    List String → Option Nat → Option String → Option String
  | [], _, sel => sel
  | t :: ts, mc, sel =>
    match findMatchingCanonical counts (pyLower t) with
    | none => selectGo counts ts mc sel
    | some k =>
      let c := (alookup k counts).getD 0
      if ltInfB c mc then selectGo counts ts (some c) (some k)
      else selectGo counts ts mc sel

def selectBranchTerm (counts : List (String × Nat)) (tags : List String) : Option String :=
  selectGo counts tags none none

/-- `defaultdict(lambda: defaultdict(list))` append into an overlay map. -/
def overlayAppend (ov : List (String × List (String × List Paper))) (q t : String)
    (p : Paper) : List (String × List (String × List Paper)) :=
  match alookup q ov with
  | some _ => ov.map (fun e => if e.1 = q then (e.1, bucketAppend e.2 t p) else e)
  | none => ov ++ [(q, [(t, [p])])]

/-- The body of the per-item loop of `load_most_cited_papers` /
`load_most_relevant_papers` (lines 172–221): match the curated item, skip it
when it has no tags, locate its query, pick the least-populated resolvable
bucket, and file the matched paper into the overlay map there. -/
def processCuratedItem (allPapers : List Paper)
    (hier : List (String × List (String × List Paper)))
    (ov : List (String × List (String × List Paper))) (item : Paper) :
    List (String × List (String × List Paper)) :=
  match matchPaper allPapers item with
  | none => ov
  | some mp =>
    if item.branch_terms.isEmpty then ov
    else
      match findTargetQuery hier mp with
      | none => ov
      | some q =>
        match selectBranchTerm (countsOfQuery hier q) item.branch_terms with
        | none => ov
        | some t => overlayAppend ov q t mp

/-! ## Aggregate-node deduplication (`get_visualization_data`) -/

/-- The dedup loop shared by the aggregate-highlight node (lines 624–637) and
the aggregate-relevant node (lines 695–707): a paper with a truthy id is
appended once (first occurrence); papers with a falsy id (`None`, `0`, `""`)
are always appended. -/
def dedupGo (seen : List PaperId) : List Paper → List Paper
  | [] => []
  | p :: ps =>
    match p.id with
    | some v =>
      if pyTruthyId v then
        if v ∈ seen then dedupGo seen ps
        else p :: dedupGo (v :: seen) ps
      else p :: dedupGo seen ps
    | none => p :: dedupGo seen ps

/-- `unique_most_cited_papers` / `unique_most_relevant_papers` from the
collected aggregate input list. -/
def dedupById (l : List Paper) : List Paper := dedupGo [] l

/-- Number of entries of a paper list carrying a given identifier. -/
def countId (l : List Paper) (v : PaperId) : Nat :=
  l.countP (fun q => decide (q.id = some v))

/-- Sample data for the concrete instantiations: an indexed paper. -/
def paperAlpha : Paper :=
  { title := "Alpha", doi := "10.1/x", branch_terms := ["Radiology"], id := some (.int 1) }

/-- Sample curated item: same DOI as `paperAlpha` up to normalization, but a
different title. -/
def itemCurated : Paper :=
  { title := "Different", doi := " 10.1/X ", branch_terms := ["radiology", "ct"] }

/-- Sample one-query hierarchy holding `paperAlpha` under `"Radiology"` and
an empty `"CT"` bucket. -/
def hierSample : List (String × List (String × List Paper)) :=
  [("q1", [("Radiology", [paperAlpha]), ("CT", [])])]

/-- A tagged paper as emitted by one parse pass of a `pubmed_…` file with no
`ID`/`LB` field: its identifier is the fallback `"paper_1"`. -/
def paperTagged : Paper :=
  { id := some (.str "paper_1"), title := "A", branch_terms := ["x"], database := "pubmed" }

/-- An untagged paper as emitted by a *sibling* parse pass of another
`pubmed_…` file: the fallback counter restarted, so it also gets
`"paper_1"`. -/
def paperNoTags : Paper :=
  { id := some (.str "paper_1"), title := "B", database := "pubmed" }

/-! ## Theorems -/

/-- **C3.** The claim is false on the code: `"Ct"` has one uppercase
character and `"CT"` has two, so `["Ct","CT"]` is not a tie, and
`_get_canonical_term` picks `"CT"`, not the first-seen `"Ct"`. -/
theorem c3_counterexample :
    upperCount "Ct" = 1 ∧ upperCount "CT" = 2
      ∧ getCanonicalTerm ["Ct", "CT"] = some "CT" := by
  refine ⟨by decide, by decide, by decide⟩

/-- **C3 (amended).** For `["Ct","CT"]` the uppercase counts are 1 and 2 (no
tie) and the canonical form is `"CT"`; for a genuinely tied variant list such
as `["Ct","cT"]` in that first-seen order, the canonical form is the
first-seen variant `"Ct"`. -/
theorem c3_amended :
    getCanonicalTerm ["Ct", "CT"] = some "CT"
      ∧ upperCount "Ct" = upperCount "cT"
      ∧ getCanonicalTerm ["Ct", "cT"] = some "Ct" := by
  refine ⟨by decide, by decide, by decide⟩

/-- **C1.** The claim is false on the code: a line consisting of `ER` alone
(no dash) is *not* a record terminator — the split regex is `^ER\s+-\s*$`,
which requires whitespace and a dash after `ER`.  On the input below the
claim predicts two records with titles `"A"` and `"B"`; the code produces a
single record whose final title is `"B"` (the bare `ER` line is swallowed as
a continuation line). -/
theorem c1_counterexample :
    isSentinelLine "ER" = false
      ∧ splitRecords (pySplit '\n' "TI  - A\nER\nTI  - B")
          = [["TI  - A", "ER", "TI  - B"]]
      ∧ (risParse "db" "TI  - A\nER\nTI  - B").map Paper.title = ["B"] := by
  refine ⟨by decide, by decide, by decide⟩

/-- **C1 (amended).** `RISParser.parse` splits the text into records at every
sentinel *line of the form* `ER`, at least one whitespace, a dash, and
optionally trailing whitespace (regex `^ER\s+-\s*$`); a line holding `ER`
alone does not terminate a record.  Every such sentinel line ends the record
accumulated since the previous sentinel. -/
theorem c1_amended_sentinel_split (pre : List String) (l : String) (post : List String)
    (hl : isSentinelLine l = true) (hpre : ∀ x ∈ pre, isSentinelLine x = false) :
    splitRecords (pre ++ l :: post) = pre :: splitRecords post := by
  induction pre with
  | nil => simp [splitRecords, hl]
  | cons a rest ih =>
    have ha : isSentinelLine a = false := hpre a (List.mem_cons_self a rest)
    have ih' := ih (fun x hx => hpre x (List.mem_cons_of_mem a hx))
    simp [splitRecords, ha, ih']

/-- Witness for `c1_amended_sentinel_split` at a concrete input. -/
theorem c1_amended_sentinel_split_witness :
    splitRecords ["TI  - A", "ER  - ", "TI  - B"] = [["TI  - A"], ["TI  - B"]] := by
  have h := c1_amended_sentinel_split ["TI  - A"] "ER  - " ["TI  - B"]
    (by decide) (by decide)
  exact h.trans (by decide)

/-- **C8.** Every `Paper` returned by `RISParser.parse` has a non-empty
title: a record without a title is dropped from the output (the parse
function is total, so no error is raised). -/
theorem c8_titles_nonempty (db : String) (content : String) :
    ∀ p ∈ risParse db content, p.title ≠ "" := by
  suffices h : ∀ (rs : List (List String)) (n : Nat), ∀ p ∈ risParseGo db rs n, p.title ≠ "" by
    exact h _ 1
  intro rs
  induction rs with
  | nil => intro n p hp; simp [risParseGo] at hp
  | cons r rest ih =>
    intro n p hp
    simp only [risParseGo] at hp
    split_ifs at hp with h1 h2 h3
    · exact ih n p hp
    · rcases List.mem_cons.mp hp with rfl | hmem
      · exact h2
      · exact ih n p hmem
    · rcases List.mem_cons.mp hp with rfl | hmem
      · exact h2
      · exact ih (n + 1) p hmem
    · exact ih n p hp

/-- Witness for `c8_titles_nonempty` at a concrete input. -/
theorem c8_titles_nonempty_witness :
    ({ title := "A", database := "db", id := some (.str "paper_1") } : Paper)
        ∈ risParse "db" "TI  - A\nER  - "
      ∧ ({ title := "A", database := "db", id := some (.str "paper_1") } : Paper).title ≠ "" := by
  refine ⟨by decide, ?_⟩
  exact c8_titles_nonempty "db" "TI  - A\nER  - " _ (by decide)

/-- **C10.** In `_set_field`, an `RN` value whose trimmed form ends in the
two characters `ER` has those two characters removed (and the remainder
re-trimmed) before the comma-split into branch tags — even when the `ER`
belongs to the final tag's own text: a final token `CANCER` comes out as
`CANC`, end to end through `parse`. -/
theorem c10_rn_trailing_er (p : Paper) (v : String)
    (hvt : pyStrip v = v) (hv : strEndsWithER v = true) :
    (setField p "RN" v).branch_terms = commaSplitClean (pyStrip (v.dropRight 2))
      ∧ (risParse "db" "TI  - T\nRN  - oncology, CANCER").map Paper.branch_terms
          = [["oncology", "CANC"]] := by
  constructor
  · show (setField p "RN" v).branch_terms = _
    have hset : setField p "RN" v
        = { p with branch_terms := commaSplitClean (rnClean (pyStrip v)) } := by
      rfl
    rw [hset]
    show commaSplitClean (rnClean (pyStrip v)) = _
    rw [hvt]
    unfold rnClean
    rw [hvt, if_pos hv]
  · decide

/-- Witness for `c10_rn_trailing_er` at a concrete input. -/
theorem c10_rn_trailing_er_witness :
    pyStrip "oncology, CANCER" = "oncology, CANCER"
      ∧ strEndsWithER "oncology, CANCER" = true
      ∧ (setField {} "RN" "oncology, CANCER").branch_terms
          = commaSplitClean (pyStrip ("oncology, CANCER".dropRight 2)) := by
  refine ⟨by decide, by decide, ?_⟩
  exact (c10_rn_trailing_er {} "oncology, CANCER" (by decide) (by decide)).1

/-! ### Identifier assignment (claim C7) -/

theorem setField_ID (p : Paper) (v : String) :
    (setField p "ID" v).id = some (parseIdValue (pyStrip v)) := rfl

theorem setField_LB_truthy (p : Paper) (v : String) (h : pyTruthyOptId p.id = true) :
    (setField p "LB" v).id = p.id := by
  have hdef : setField p "LB" v
      = if pyTruthyOptId p.id then p else { p with id := some (parseIdValue (pyStrip v)) } := rfl
  rw [hdef, if_pos h]

theorem setField_LB_falsy (p : Paper) (v : String) (h : pyTruthyOptId p.id = false) :
    (setField p "LB" v).id = some (parseIdValue (pyStrip v)) := by
  have hdef : setField p "LB" v
      = if pyTruthyOptId p.id then p else { p with id := some (parseIdValue (pyStrip v)) } := rfl
  rw [hdef, if_neg (by simp [h])]

/-- Every field other than `ID` and `LB` leaves the identifier unchanged. -/
theorem setField_preserves_id (p : Paper) (tag v : String)
    (h1 : tag ≠ "ID") (h2 : tag ≠ "LB") : (setField p tag v).id = p.id := by
  by_cases hTI : tag = "TI"
  · subst hTI; rfl
  by_cases hPY : tag = "PY"
  · subst hPY
    show (match findYear (pyStrip v).toList with
          | some y => { p with year := some y }
          | none => p).id = p.id
    cases findYear (pyStrip v).toList <;> rfl
  by_cases hAB : tag = "AB"
  · subst hAB; rfl
  by_cases hAU : tag = "AU"
  · subst hAU; rfl
  by_cases hDO : tag = "DO"
  · subst hDO; rfl
  by_cases hN1 : tag = "N1"
  · subst hN1; rfl
  by_cases hRN : tag = "RN"
  · subst hRN; rfl
  by_cases hL1 : tag = "L1"
  · subst hL1; rfl
  by_cases hT2 : tag = "T2"
  · subst hT2; rfl
  by_cases hVL : tag = "VL"
  · subst hVL; rfl
  by_cases hIS : tag = "IS"
  · subst hIS; rfl
  by_cases hSP : tag = "SP"
  · subst hSP; rfl
  by_cases hUR : tag = "UR"
  · subst hUR; rfl
  by_cases hKW : tag = "KW"
  · subst hKW; rfl
  simp only [setField]
  rw [if_neg hTI, if_neg hPY, if_neg hAB, if_neg hAU, if_neg hDO, if_neg hN1, if_neg hRN,
    if_neg hL1, if_neg hT2, if_neg hVL, if_neg hIS, if_neg hSP, if_neg hUR, if_neg hKW,
    if_neg h1, if_neg h2]

/-- Once the identifier holds a truthy value that every later `ID` field
re-asserts, processing further fields keeps it. -/
theorem foldl_setField_id_stable :
    ∀ (fs : List (String × String)) (p : Paper) (t : PaperId),
      p.id = some t → pyTruthyId t = true →
      (∀ w, ("ID", w) ∈ fs → parseIdValue (pyStrip w) = t) →
      (fs.foldl (fun p f => setField p f.1 f.2) p).id = some t := by
  intro fs
  induction fs with
  | nil => intro p t hp _ _; simpa using hp
  | cons f rest ih =>
    obtain ⟨tg, w⟩ := f
    intro p t hp htr hall
    rw [List.foldl_cons]
    have hall' : ∀ w', ("ID", w') ∈ rest → parseIdValue (pyStrip w') = t :=
      fun w' hw' => hall w' (List.mem_cons_of_mem _ hw')
    by_cases hID : tg = "ID"
    · subst hID
      refine ih (setField p "ID" w) t ?_ htr hall'
      rw [setField_ID, hall w (List.mem_cons_self _ _)]
    · by_cases hLB : tg = "LB"
      · subst hLB
        refine ih (setField p "LB" w) t ?_ htr hall'
        rw [setField_LB_truthy _ _ (by rw [hp]; exact htr), hp]
      · refine ih (setField p tg w) t ?_ htr hall'
        rw [setField_preserves_id p tg w hID hLB, hp]

/-- A unique truthy `ID` field determines the identifier after the fold. -/
theorem foldl_setField_id_set :
    ∀ (fs : List (String × String)) (p : Paper) (v : String),
      ("ID", v) ∈ fs → (∀ w, ("ID", w) ∈ fs → w = v) →
      pyTruthyId (parseIdValue (pyStrip v)) = true →
      (fs.foldl (fun p f => setField p f.1 f.2) p).id = some (parseIdValue (pyStrip v)) := by
  intro fs
  induction fs with
  | nil => intro p v h; simp at h
  | cons f rest ih =>
    obtain ⟨tg, w⟩ := f
    intro p v hmem huniq htr
    rw [List.foldl_cons]
    rcases List.mem_cons.mp hmem with heq | hrest
    · injection heq with htg hw
      subst htg; subst hw
      refine foldl_setField_id_stable rest _ _ ?_ htr ?_
      · exact setField_ID p v
      · intro w' hw'
        rw [huniq w' (List.mem_cons_of_mem _ hw')]
    · exact ih (setField p tg w) v hrest
        (fun w' h' => huniq w' (List.mem_cons_of_mem _ h')) htr

/-- **C7.** The claim is false on the code: an `ID` field whose value parses
to the integer `0` does set the identifier, but `if not paper.id` treats `0`
as missing, so the fallback counter overwrites it — the retained paper's
identifier is `"paper_1"`, not the `ID` field's value `0`. -/
theorem c7_counterexample :
    (risParse "db" "TI  - T\nID  - 0").map Paper.id = [some (.str "paper_1")]
      ∧ parseIdValue (pyStrip "0") = .int 0 := by
  refine ⟨by decide, by decide⟩

/-- **C7 (amended).** For every record whose fields contain a single `ID`
value `v` whose parsed form (integer if possible, else the string) is
Python-truthy (a non-zero integer or a non-empty string), the paper's
identifier equals that parsed value — `ID` takes priority over any `LB`
field — and the identifier is truthy, so the `paper_<n>` fallback does not
replace it.  An `LB` field sets the identifier exactly when the current
identifier is falsy (`None`, integer `0`, or empty string) — not merely when
no `ID` field was seen. -/
theorem c7_amended_id_priority :
    (∀ (recLines : List String) (v : String),
        ("ID", v) ∈ recordFields recLines →
        (∀ f ∈ recordFields recLines, f.1 = "ID" → f.2 = v) →
        pyTruthyId (parseIdValue (pyStrip v)) = true →
        (parseRecordLines recLines).id = some (parseIdValue (pyStrip v))
          ∧ pyTruthyOptId (parseRecordLines recLines).id = true)
    ∧ (∀ (p : Paper) (w : String), pyTruthyOptId p.id = true → (setField p "LB" w).id = p.id)
    ∧ (∀ (p : Paper) (w : String), pyTruthyOptId p.id = false →
        (setField p "LB" w).id = some (parseIdValue (pyStrip w))) := by
  refine ⟨?_, setField_LB_truthy, setField_LB_falsy⟩
  intro recLines v hmem huniq htr
  have hset : (parseRecordLines recLines).id = some (parseIdValue (pyStrip v)) := by
    refine foldl_setField_id_set (recordFields recLines) {} v hmem ?_ htr
    intro w hw
    exact huniq ("ID", w) hw rfl
  refine ⟨hset, ?_⟩
  rw [hset]
  exact htr

/-- Witness for `c7_amended_id_priority` at a concrete record. -/
theorem c7_amended_id_priority_witness :
    ("ID", "7") ∈ recordFields ["TI  - T", "ID  - 7", "LB  - 9"]
      ∧ (parseRecordLines ["TI  - T", "ID  - 7", "LB  - 9"]).id
          = some (parseIdValue (pyStrip "7")) := by
  refine ⟨by decide, ?_⟩
  exact (c7_amended_id_priority.1 ["TI  - T", "ID  - 7", "LB  - 9"] "7"
    (by decide) (by decide) (by decide)).1

/-! ### Canonical-term choice (claims C2, C9) -/

/-- The fold implementing Python `max(..., key=...)` returns an element that
attains the maximum key and is strictly preceded only by elements of smaller
key (first-seen wins ties). -/
theorem foldMax_decomp (xs : List String) :
    ∀ (x : String),
      ∃ pre post,
        x :: xs = pre
            ++ (xs.foldl (fun cur y => if upperCount cur < upperCount y then y else cur) x)
            :: post
        ∧ (∀ z ∈ x :: xs, upperCount z
            ≤ upperCount (xs.foldl (fun cur y => if upperCount cur < upperCount y then y else cur) x))
        ∧ (∀ z ∈ pre, upperCount z
            < upperCount (xs.foldl (fun cur y => if upperCount cur < upperCount y then y else cur) x)) := by
  induction xs with
  | nil =>
    intro x
    exact ⟨[], [], rfl, by simp, by simp⟩
  | cons y ys ih =>
    intro x
    rw [List.foldl_cons]
    by_cases hxy : upperCount x < upperCount y
    · rw [if_pos hxy]
      obtain ⟨pre, post, hdec, hle, hlt⟩ := ih y
      have hym : upperCount y
          ≤ upperCount (ys.foldl (fun cur y => if upperCount cur < upperCount y then y else cur) y) :=
        hle y (List.mem_cons_self y ys)
      refine ⟨x :: pre, post, ?_, ?_, ?_⟩
      · rw [List.cons_append, ← hdec]
      · intro z hz
        rcases List.mem_cons.mp hz with rfl | hz'
        · exact le_of_lt (lt_of_lt_of_le hxy hym)
        · exact hle z hz'
      · intro z hz
        rcases List.mem_cons.mp hz with rfl | hz'
        · exact lt_of_lt_of_le hxy hym
        · exact hlt z hz'
    · rw [if_neg hxy]
      have hyx : upperCount y ≤ upperCount x := le_of_not_lt hxy
      obtain ⟨pre, post, hdec, hle, hlt⟩ := ih x
      have hxm : upperCount x
          ≤ upperCount (ys.foldl (fun cur y => if upperCount cur < upperCount y then y else cur) x) :=
        hle x (List.mem_cons_self x ys)
      cases pre with
      | nil =>
        injection hdec with hx hys
        refine ⟨[], y :: post, ?_, ?_, by simp⟩
        · rw [← hys, List.nil_append, ← hx]
        · intro z hz
          rcases List.mem_cons.mp hz with rfl | hz'
          · exact hxm
          · rcases List.mem_cons.mp hz' with rfl | hz''
            · exact le_trans hyx hxm
            · exact hle z (List.mem_cons_of_mem x hz'')
      | cons a pre2 =>
        injection hdec with hx hys
        subst hx
        have hax : upperCount x
            < upperCount (ys.foldl (fun cur y => if upperCount cur < upperCount y then y else cur) x) :=
          hlt x (List.mem_cons_self x pre2)
        refine ⟨x :: y :: pre2, post, ?_, ?_, ?_⟩
        · rw [List.cons_append, List.cons_append]
          exact congrArg (fun l => x :: y :: l) hys
        · intro z hz
          rcases List.mem_cons.mp hz with rfl | hz'
          · exact le_of_lt hax
          · rcases List.mem_cons.mp hz' with rfl | hz''
            · exact le_of_lt (lt_of_le_of_lt hyx hax)
            · exact hle z (List.mem_cons_of_mem x hz'')
        · intro z hz
          rcases List.mem_cons.mp hz with rfl | hz'
          · exact hax
          · rcases List.mem_cons.mp hz' with rfl | hz''
            · exact lt_of_le_of_lt hyx hax
            · exact hlt z (List.mem_cons_of_mem x hz'')

/-- **C2.** `_get_canonical_term` returns the variant with the greatest
number of uppercase characters, breaking ties in favor of the first-seen
variant (everything strictly before the chosen one has strictly fewer
uppercase characters); in particular, on `["ct","CT","Ct"]` it returns
`"CT"`. -/
theorem c2_canonical_choice :
    (∀ (l : List String), l ≠ [] →
      ∃ t pre post, getCanonicalTerm l = some t ∧ l = pre ++ t :: post
        ∧ (∀ z ∈ l, upperCount z ≤ upperCount t)
        ∧ (∀ z ∈ pre, upperCount z < upperCount t))
    ∧ getCanonicalTerm ["ct", "CT", "Ct"] = some "CT" := by
  constructor
  · intro l hl
    cases l with
    | nil => exact absurd rfl hl
    | cons x xs =>
      obtain ⟨pre, post, hdec, hle, hlt⟩ := foldMax_decomp xs x
      exact ⟨_, pre, post, rfl, hdec, hle, hlt⟩
  · decide

/-- Witness for `c2_canonical_choice` at the claim's concrete variant list. -/
theorem c2_canonical_choice_witness :
    (["ct", "CT", "Ct"] : List String) ≠ []
      ∧ ∃ t pre post, getCanonicalTerm ["ct", "CT", "Ct"] = some t
          ∧ ["ct", "CT", "Ct"] = pre ++ t :: post
          ∧ (∀ z ∈ (["ct", "CT", "Ct"] : List String), upperCount z ≤ upperCount t)
          ∧ (∀ z ∈ pre, upperCount z < upperCount t) :=
  ⟨by decide, c2_canonical_choice.1 ["ct", "CT", "Ct"] (by decide)⟩

theorem alookup_mem {α : Type} :
    ∀ (m : List (String × α)) (k : String) (v : α), alookup k m = some v → (k, v) ∈ m := by
  intro m
  induction m with
  | nil => intro k v h; simp [alookup] at h
  | cons e rest ih =>
    intro k v h
    simp only [alookup] at h
    by_cases he : e.1 = k
    · rw [if_pos he] at h
      injection h with h2
      have hkv : (k, v) = e := by rw [← he, ← h2]
      rw [hkv]
      exact List.mem_cons_self e rest
    · rw [if_neg he] at h
      exact List.mem_cons_of_mem e (ih k v h)

theorem alookup_append_some {α : Type} :
    ∀ (m l : List (String × α)) (k : String) (v : α),
      alookup k m = some v → alookup k (m ++ l) = some v := by
  intro m
  induction m with
  | nil => intro l k v h; simp [alookup] at h
  | cons e rest ih =>
    intro l k v h
    simp only [alookup] at h ⊢
    by_cases he : e.1 = k
    · rwa [if_pos he] at h ⊢
    · rw [if_neg he] at h ⊢
      exact ih l k v h

theorem alookup_append_none {α : Type} :
    ∀ (m l : List (String × α)) (k : String),
      alookup k m = none → alookup k (m ++ l) = alookup k l := by
  intro m
  induction m with
  | nil => intro l k _; rfl
  | cons e rest ih =>
    intro l k h
    simp only [alookup] at h ⊢
    by_cases he : e.1 = k
    · rw [if_pos he] at h; exact absurd h (by simp)
    · rw [if_neg he] at h ⊢
      exact ih l k h

theorem alookup_map_keyval {α β : Type} (g : α → β) :
    ∀ (m : List (String × α)) (k : String),
      alookup k (m.map (fun e => (e.1, g e.2))) = (alookup k m).map g := by
  intro m
  induction m with
  | nil => intro k; rfl
  | cons e rest ih =>
    intro k
    simp only [List.map_cons, alookup]
    by_cases he : e.1 = k
    · rw [if_pos he, if_pos he]; rfl
    · rw [if_neg he, if_neg he]; exact ih k

theorem alookup_map_update {α : Type} (f : α → α) (k0 : String) :
    ∀ (m : List (String × α)) (k : String),
      alookup k (m.map (fun e => if e.1 = k0 then (e.1, f e.2) else e))
        = if k = k0 then (alookup k m).map f else alookup k m := by
  intro m
  induction m with
  | nil =>
    intro k
    simp only [List.map_nil, alookup]
    split <;> rfl
  | cons e rest ih =>
    intro k
    rw [List.map_cons]
    by_cases he0 : e.1 = k0
    · rw [if_pos he0]
      simp only [alookup]
      by_cases hek : e.1 = k
      · have hk : k = k0 := by rw [← hek]; exact he0
        rw [if_pos hek, if_pos hek, if_pos hk]
        rfl
      · rw [if_neg hek, if_neg hek, ih k]
    · rw [if_neg he0]
      simp only [alookup]
      by_cases hek : e.1 = k
      · have hk : ¬(k = k0) := fun hkk => he0 (hek.trans hkk)
        rw [if_pos hek, if_pos hek, if_neg hk]
      · rw [if_neg hek, if_neg hek, ih k]

/-- Equation: the observed variant is already recorded, so the table is
unchanged. -/
theorem addVariant_mem (m : List (String × List String)) (t : String) (vs : List String)
    (hl : alookup (pyLower t) m = some vs) (hm : t ∈ vs) : addVariant m t = m := by
  unfold addVariant
  simp only [hl]
  rw [if_pos hm]

/-- Equation: a new variant of an existing lowercased form is appended to
that form's variant list. -/
theorem addVariant_newvar (m : List (String × List String)) (t : String) (vs : List String)
    (hl : alookup (pyLower t) m = some vs) (hm : t ∉ vs) :
    addVariant m t = m.map (fun e => if e.1 = pyLower t then (e.1, e.2 ++ [t]) else e) := by
  unfold addVariant
  simp only [hl]
  rw [if_neg hm]

/-- Equation: a new lowercased form opens a fresh singleton entry. -/
theorem addVariant_newkey (m : List (String × List String)) (t : String)
    (hl : alookup (pyLower t) m = none) : addVariant m t = m ++ [(pyLower t, [t])] := by
  unfold addVariant
  simp only [hl]

theorem alookup_addVariant_isSome (m : List (String × List String)) (t : String) (k : String)
    (h : (alookup k m).isSome = true) : (alookup k (addVariant m t)).isSome = true := by
  cases hl : alookup (pyLower t) m with
  | some vs =>
    by_cases hm : t ∈ vs
    · rw [addVariant_mem m t vs hl hm]; exact h
    · rw [addVariant_newvar m t vs hl hm,
        alookup_map_update (fun vs => vs ++ [t]) (pyLower t) m k]
      split
      · simpa using h
      · exact h
  | none =>
    rw [addVariant_newkey m t hl]
    cases hk : alookup k m with
    | some v => rw [alookup_append_some m _ k v hk]; rfl
    | none => rw [hk] at h; simp at h

theorem alookup_addVariant_self (m : List (String × List String)) (t : String) :
    (alookup (pyLower t) (addVariant m t)).isSome = true := by
  cases hl : alookup (pyLower t) m with
  | some vs =>
    by_cases hm : t ∈ vs
    · rw [addVariant_mem m t vs hl hm, hl]; rfl
    · rw [addVariant_newvar m t vs hl hm,
        alookup_map_update (fun vs => vs ++ [t]) (pyLower t) m (pyLower t), if_pos rfl, hl]
      rfl
  | none =>
    rw [addVariant_newkey m t hl, alookup_append_none m _ _ hl]
    simp [alookup]

theorem foldl_addVariant_isSome :
    ∀ (tags : List String) (m : List (String × List String)) (k : String),
      (alookup k m).isSome = true → (alookup k (tags.foldl addVariant m)).isSome = true := by
  intro tags
  induction tags with
  | nil => intro m k h; exact h
  | cons a rest ih =>
    intro m k h
    rw [List.foldl_cons]
    exact ih _ k (alookup_addVariant_isSome m a k h)

theorem foldl_addVariant_present :
    ∀ (tags : List String) (m : List (String × List String)) (t : String),
      t ∈ tags → (alookup (pyLower t) (tags.foldl addVariant m)).isSome = true := by
  intro tags
  induction tags with
  | nil => intro m t h; simp at h
  | cons a rest ih =>
    intro m t h
    rw [List.foldl_cons]
    rcases List.mem_cons.mp h with rfl | h'
    · exact foldl_addVariant_isSome rest _ _ (alookup_addVariant_self m t)
    · exact ih _ t h'

theorem addVariant_good (S : List String)
    (hS : ∀ a ∈ S, ∀ b ∈ S, pyLower a = pyLower b → a = b)
    (m : List (String × List String)) (t : String) (ht : t ∈ S)
    (hm : ∀ e ∈ m, ∃ u, u ∈ S ∧ e.1 = pyLower u ∧ e.2 = [u]) :
    ∀ e ∈ addVariant m t, ∃ u, u ∈ S ∧ e.1 = pyLower u ∧ e.2 = [u] := by
  cases hl : alookup (pyLower t) m with
  | some vs =>
    obtain ⟨u, hu, hku, hvu⟩ := hm _ (alookup_mem m (pyLower t) vs hl)
    have hku' : pyLower t = pyLower u := hku
    have hvu' : vs = [u] := hvu
    have hut : u = t := hS u hu t ht hku'.symm
    have htv : t ∈ vs := by rw [hvu', hut]; exact List.mem_cons_self t []
    rw [addVariant_mem m t vs hl htv]
    exact hm
  | none =>
    rw [addVariant_newkey m t hl]
    intro e he
    rcases List.mem_append.mp he with he' | he'
    · exact hm e he'
    · have he2 : e = (pyLower t, [t]) := by simpa using he'
      exact ⟨t, ht, by rw [he2], by rw [he2]⟩

theorem foldl_addVariant_good (S : List String)
    (hS : ∀ a ∈ S, ∀ b ∈ S, pyLower a = pyLower b → a = b) :
    ∀ (tags : List String) (m : List (String × List String)),
      (∀ x ∈ tags, x ∈ S) →
      (∀ e ∈ m, ∃ u, u ∈ S ∧ e.1 = pyLower u ∧ e.2 = [u]) →
      ∀ e ∈ tags.foldl addVariant m, ∃ u, u ∈ S ∧ e.1 = pyLower u ∧ e.2 = [u] := by
  intro tags
  induction tags with
  | nil => intro m _ hm; exact hm
  | cons a rest ih =>
    intro m htags hm
    rw [List.foldl_cons]
    exact ih _ (fun x hx => htags x (List.mem_cons_of_mem a hx))
      (addVariant_good S hS m a (htags a (List.mem_cons_self a rest)) hm)

/-- When every lowercased form has exactly one observed variant, the variant
table maps each tag's lowercase form to the singleton list of that tag. -/
theorem collectVariants_self (tags : List String)
    (h : ∀ a ∈ tags, ∀ b ∈ tags, pyLower a = pyLower b → a = b) :
    ∀ t ∈ tags, alookup (pyLower t) (collectVariants tags) = some [t] := by
  intro t ht
  have hpres := foldl_addVariant_present tags [] t ht
  obtain ⟨vs, hvs⟩ := Option.isSome_iff_exists.mp hpres
  have hgood := foldl_addVariant_good tags h tags [] (fun x hx => hx) (by simp)
  obtain ⟨u, hu, hku, hvu⟩ := hgood _ (alookup_mem _ _ _ hvs)
  have hku' : pyLower t = pyLower u := hku
  have hvu' : vs = [u] := hvu
  have hut : u = t := h u hu t ht hku'.symm
  show alookup (pyLower t) (List.foldl addVariant [] tags) = some [t]
  rw [hvs, hvu', hut]

theorem list_map_id_of_mem {α : Type} :
    ∀ (l : List α) (f : α → α), (∀ x ∈ l, f x = x) → l.map f = l := by
  intro l
  induction l with
  | nil => intro f _; rfl
  | cons a rest ih =>
    intro f h
    rw [List.map_cons, h a (List.mem_cons_self a rest),
      ih f (fun x hx => h x (List.mem_cons_of_mem a hx))]

/-- **C9.** Canonicalization is idempotent: when every lowercased form of
the query's observed tag stream has exactly one observed variant, the
lowercased-form → canonical-form table maps every tag to itself, so
re-applying it to the stream is a no-op. -/
theorem c9_canonicalize_idempotent (tags : List String)
    (h : ∀ a ∈ tags, ∀ b ∈ tags, pyLower a = pyLower b → a = b) :
    (∀ t ∈ tags, canonicalizeTag (canonMapOf tags) t = t)
      ∧ canonicalizeTags tags = tags := by
  have hpt : ∀ t ∈ tags, canonicalizeTag (canonMapOf tags) t = t := by
    intro t ht
    unfold canonicalizeTag canonMapOf
    rw [alookup_map_keyval (fun vs => (getCanonicalTerm vs).getD "") (collectVariants tags)
      (pyLower t), collectVariants_self tags h t ht]
    rfl
  exact ⟨hpt, list_map_id_of_mem tags _ hpt⟩

/-- Witness for `c9_canonicalize_idempotent` at a concrete tag stream. -/
theorem c9_canonicalize_idempotent_witness :
    canonicalizeTags ["CT", "Radiology"] = ["CT", "Radiology"] :=
  (c9_canonicalize_idempotent ["CT", "Radiology"] (by decide)).2

/-! ### Aggregate-node deduplication (claims C5, C6) -/

theorem dedupGo_cons_seen (seen : List PaperId) (p : Paper) (ps : List Paper) (v : PaperId)
    (hid : p.id = some v) (htr : pyTruthyId v = true) (hv : v ∈ seen) :
    dedupGo seen (p :: ps) = dedupGo seen ps := by
  conv_lhs => rw [dedupGo]
  simp only [hid]
  rw [if_pos htr, if_pos hv]

theorem dedupGo_cons_new (seen : List PaperId) (p : Paper) (ps : List Paper) (v : PaperId)
    (hid : p.id = some v) (htr : pyTruthyId v = true) (hv : v ∉ seen) :
    dedupGo seen (p :: ps) = p :: dedupGo (v :: seen) ps := by
  conv_lhs => rw [dedupGo]
  simp only [hid]
  rw [if_pos htr, if_neg hv]

theorem dedupGo_cons_falsy (seen : List PaperId) (p : Paper) (ps : List Paper) (v : PaperId)
    (hid : p.id = some v) (htr : pyTruthyId v = false) :
    dedupGo seen (p :: ps) = p :: dedupGo seen ps := by
  conv_lhs => rw [dedupGo]
  simp only [hid]
  rw [if_neg (by simp [htr])]

theorem dedupGo_cons_noid (seen : List PaperId) (p : Paper) (ps : List Paper)
    (hid : p.id = none) : dedupGo seen (p :: ps) = p :: dedupGo seen ps := by
  conv_lhs => rw [dedupGo]
  simp only [hid]

theorem dedupGo_sublist : ∀ (l : List Paper) (seen : List PaperId), (dedupGo seen l).Sublist l := by
  intro l
  induction l with
  | nil => intro seen; exact List.Sublist.refl []
  | cons p ps ih =>
    intro seen
    cases hid : p.id with
    | none =>
      rw [dedupGo_cons_noid seen p ps hid]
      exact List.Sublist.cons₂ p (ih seen)
    | some v =>
      by_cases htr : pyTruthyId v = true
      · by_cases hv : v ∈ seen
        · rw [dedupGo_cons_seen seen p ps v hid htr hv]
          exact List.Sublist.cons p (ih seen)
        · rw [dedupGo_cons_new seen p ps v hid htr hv]
          exact List.Sublist.cons₂ p (ih (v :: seen))
      · rw [dedupGo_cons_falsy seen p ps v hid (by simpa using htr)]
        exact List.Sublist.cons₂ p (ih seen)

/-- A truthy identifier appearing in the output was not in the initial
`seen` set. -/
theorem dedupGo_not_seen : ∀ (l : List Paper) (seen : List PaperId) (q : Paper),
    q ∈ dedupGo seen l → ∀ v, pyTruthyId v = true → q.id = some v → v ∉ seen := by
  intro l
  induction l with
  | nil => intro seen q hq; simp [dedupGo] at hq
  | cons p ps ih =>
    intro seen q hq v htr hqv
    cases hid : p.id with
    | none =>
      rw [dedupGo_cons_noid seen p ps hid] at hq
      rcases List.mem_cons.mp hq with rfl | hq'
      · rw [hid] at hqv; exact absurd hqv (by simp)
      · exact ih seen q hq' v htr hqv
    | some w =>
      by_cases hwt : pyTruthyId w = true
      · by_cases hw : w ∈ seen
        · rw [dedupGo_cons_seen seen p ps w hid hwt hw] at hq
          exact ih seen q hq v htr hqv
        · rw [dedupGo_cons_new seen p ps w hid hwt hw] at hq
          rcases List.mem_cons.mp hq with rfl | hq'
          · rw [hid] at hqv
            injection hqv with hwv
            exact hwv ▸ hw
          · have hni := ih (w :: seen) q hq' v htr hqv
            exact fun hv => hni (List.mem_cons_of_mem w hv)
      · rw [dedupGo_cons_falsy seen p ps w hid (by simpa using hwt)] at hq
        rcases List.mem_cons.mp hq with rfl | hq'
        · rw [hid] at hqv
          injection hqv with hwv
          rw [hwv] at hwt
          exact absurd htr hwt
        · exact ih seen q hq' v htr hqv

/-- No two retained entries carry the same truthy identifier. -/
theorem dedupGo_pairwise : ∀ (l : List Paper) (seen : List PaperId),
    (dedupGo seen l).Pairwise
      (fun p q => ∀ v, pyTruthyId v = true → p.id = some v → q.id ≠ some v) := by
  intro l
  induction l with
  | nil => intro seen; simp [dedupGo]
  | cons p ps ih =>
    intro seen
    cases hid : p.id with
    | none =>
      rw [dedupGo_cons_noid seen p ps hid]
      refine List.Pairwise.cons ?_ (ih seen)
      intro q hq v htr hpv
      rw [hid] at hpv
      exact absurd hpv (by simp)
    | some w =>
      by_cases hwt : pyTruthyId w = true
      · by_cases hw : w ∈ seen
        · rw [dedupGo_cons_seen seen p ps w hid hwt hw]; exact ih seen
        · rw [dedupGo_cons_new seen p ps w hid hwt hw]
          refine List.Pairwise.cons ?_ (ih (w :: seen))
          intro q hq v htr hpv
          rw [hid] at hpv
          injection hpv with hwv
          intro hqv
          have hni := dedupGo_not_seen ps (w :: seen) q hq v htr hqv
          have hvin : v ∈ w :: seen := by rw [← hwv]; exact List.mem_cons_self w seen
          exact hni hvin
      · rw [dedupGo_cons_falsy seen p ps w hid (by simpa using hwt)]
        refine List.Pairwise.cons ?_ (ih seen)
        intro q hq v htr hpv
        rw [hid] at hpv
        injection hpv with hwv
        rw [hwv] at hwt
        exact absurd htr hwt

/-- Papers with a `None` identifier are never deduplicated: the falsy-id
entries of the output are exactly those of the input, in order. -/
theorem dedupGo_filter_none : ∀ (l : List Paper) (seen : List PaperId),
    (dedupGo seen l).filter (fun p => p.id.isNone) = l.filter (fun p => p.id.isNone) := by
  intro l
  induction l with
  | nil => intro seen; rfl
  | cons p ps ih =>
    intro seen
    cases hid : p.id with
    | none =>
      rw [dedupGo_cons_noid seen p ps hid, List.filter_cons, List.filter_cons]
      simp only [hid, Option.isNone_none, if_pos]
      rw [ih seen]
    | some w =>
      by_cases hwt : pyTruthyId w = true
      · by_cases hw : w ∈ seen
        · rw [dedupGo_cons_seen seen p ps w hid hwt hw, ih seen, List.filter_cons]
          simp [hid]
        · rw [dedupGo_cons_new seen p ps w hid hwt hw, List.filter_cons, List.filter_cons]
          simp only [hid, Option.isNone_some]
          rw [ih (w :: seen)]
      · rw [dedupGo_cons_falsy seen p ps w hid (by simpa using hwt),
          List.filter_cons, List.filter_cons]
        simp only [hid, Option.isNone_some]
        rw [ih seen]

/-- **C5.** For inputs whose identifiers are `None` or truthy — which is the
case for every paper the parser emits, hence for every aggregate payload of
`get_visualization_data` — the aggregate deduplication never keeps two
entries sharing the same non-`None` identifier, and papers lacking an
identifier are never deduplicated (they all survive, in order).  Both the
aggregate-highlight node (lines 624–637) and the aggregate-relevant node
(lines 695–707) build their payload with this `dedupById`. -/
theorem c5_aggregate_dedup (l : List Paper)
    (h : ∀ p ∈ l, p.id = none ∨ pyTruthyOptId p.id = true) :
    (dedupById l).Pairwise (fun p q => p.id = none ∨ p.id ≠ q.id)
      ∧ (dedupById l).filter (fun p => p.id.isNone) = l.filter (fun p => p.id.isNone) := by
  constructor
  · have hpw := dedupGo_pairwise l []
    have hsub : ∀ q ∈ dedupById l, q ∈ l := fun q hq => (dedupGo_sublist l []).subset hq
    refine List.Pairwise.imp_of_mem ?_ hpw
    intro a b ha hb hr
    rcases h a (hsub a ha) with hna | hta
    · exact Or.inl hna
    · cases hida : a.id with
      | none => exact Or.inl rfl
      | some v =>
        have htr : pyTruthyId v = true := by rw [hida] at hta; exact hta
        refine Or.inr ?_
        intro heq
        exact hr v htr hida heq.symm
  · exact dedupGo_filter_none l []

/-- Witness for `c5_aggregate_dedup` at a concrete payload list. -/
theorem c5_aggregate_dedup_witness :
    (∀ p ∈ ([{ title := "a", id := some (.int 1) }, { title := "b" },
        { title := "c", id := some (.int 1) }] : List Paper),
      p.id = none ∨ pyTruthyOptId p.id = true)
    ∧ (dedupById [{ title := "a", id := some (.int 1) }, { title := "b" },
        { title := "c", id := some (.int 1) }]).Pairwise
        (fun p q => p.id = none ∨ p.id ≠ q.id) :=
  ⟨by decide,
   (c5_aggregate_dedup [{ title := "a", id := some (.int 1) }, { title := "b" },
     { title := "c", id := some (.int 1) }] (by decide)).1⟩

/-! ### Hierarchy grouping and the uncategorized bucket (claim C6) -/

theorem bucketAppend_eq_mem {α : Type} (m : List (String × List α)) (k : String) (x : α)
    (vs : List α) (hl : alookup k m = some vs) :
    bucketAppend m k x = m.map (fun e => if e.1 = k then (e.1, e.2 ++ [x]) else e) := by
  unfold bucketAppend
  simp only [hl]

theorem bucketAppend_eq_new {α : Type} (m : List (String × List α)) (k : String) (x : α)
    (hl : alookup k m = none) : bucketAppend m k x = m ++ [(k, [x])] := by
  unfold bucketAppend
  simp only [hl]

theorem bucketOf_bucketAppend_self {α : Type} (m : List (String × List α)) (k : String)
    (x : α) : bucketOf (bucketAppend m k x) k = bucketOf m k ++ [x] := by
  cases hl : alookup k m with
  | some vs =>
    rw [bucketAppend_eq_mem m k x vs hl]
    unfold bucketOf
    rw [alookup_map_update (fun l => l ++ [x]) k m k, if_pos rfl, hl]
    rfl
  | none =>
    rw [bucketAppend_eq_new m k x hl]
    unfold bucketOf
    rw [alookup_append_none m _ k hl, hl]
    simp [alookup]

theorem bucketOf_bucketAppend_ne {α : Type} (m : List (String × List α))
    (kapp kread : String) (x : α) (hne : kread ≠ kapp) :
    bucketOf (bucketAppend m kapp x) kread = bucketOf m kread := by
  cases hl : alookup kapp m with
  | some vs =>
    rw [bucketAppend_eq_mem m kapp x vs hl]
    unfold bucketOf
    rw [alookup_map_update (fun l => l ++ [x]) kapp m kread, if_neg hne]
  | none =>
    rw [bucketAppend_eq_new m kapp x hl]
    unfold bucketOf
    cases hk : alookup kread m with
    | some v => rw [alookup_append_some m _ kread v hk]
    | none =>
      rw [alookup_append_none m _ kread hk]
      simp [alookup, Ne.symm hne]

theorem mem_bucketAppend_self {α : Type} (m : List (String × List α)) (k : String) (x : α) :
    x ∈ bucketOf (bucketAppend m k x) k := by
  rw [bucketOf_bucketAppend_self]
  exact List.mem_append_right _ (List.mem_singleton.mpr rfl)

theorem mem_bucketAppend_mono {α : Type} (m : List (String × List α)) (kapp kread : String)
    (x y : α) (hy : y ∈ bucketOf m kread) : y ∈ bucketOf (bucketAppend m kapp x) kread := by
  by_cases hkk : kread = kapp
  · subst hkk
    rw [bucketOf_bucketAppend_self]
    exact List.mem_append_left _ hy
  · rw [bucketOf_bucketAppend_ne m kapp kread x hkk]
    exact hy

theorem mem_bucketAppend_inv {α : Type} (m : List (String × List α)) (kapp kread : String)
    (x y : α) (hy : y ∈ bucketOf (bucketAppend m kapp x) kread) :
    y ∈ bucketOf m kread ∨ (y = x ∧ kread = kapp) := by
  by_cases hkk : kread = kapp
  · subst hkk
    rw [bucketOf_bucketAppend_self] at hy
    rcases List.mem_append.mp hy with h | h
    · exact Or.inl h
    · exact Or.inr ⟨List.mem_singleton.mp h, rfl⟩
  · rw [bucketOf_bucketAppend_ne m kapp kread x hkk] at hy
    exact Or.inl hy

theorem mem_foldBucket_mono (f : String → String) (p : Paper) :
    ∀ (tags : List String) (m : List (String × List Paper)) (y : Paper) (k : String),
      y ∈ bucketOf m k →
      y ∈ bucketOf (tags.foldl (fun m t => bucketAppend m (f t) p) m) k := by
  intro tags
  induction tags with
  | nil => intro m y k hy; exact hy
  | cons t ts ih =>
    intro m y k hy
    rw [List.foldl_cons]
    exact ih _ y k (mem_bucketAppend_mono m (f t) k p y hy)

theorem mem_foldBucket_inv (f : String → String) (p : Paper) :
    ∀ (tags : List String) (m : List (String × List Paper)) (y : Paper) (k : String),
      y ∈ bucketOf (tags.foldl (fun m t => bucketAppend m (f t) p) m) k →
      y ∈ bucketOf m k ∨ y = p := by
  intro tags
  induction tags with
  | nil => intro m y k hy; exact Or.inl hy
  | cons t ts ih =>
    intro m y k hy
    rw [List.foldl_cons] at hy
    rcases ih _ y k hy with h | h
    · rcases mem_bucketAppend_inv m (f t) k p y h with h' | h'
      · exact Or.inl h'
      · exact Or.inr h'.1
    · exact Or.inr h

theorem mem_addPaper_mono (cmap : List (String × String)) (m : List (String × List Paper))
    (p y : Paper) (k : String) (hy : y ∈ bucketOf m k) :
    y ∈ bucketOf (addPaperToGrouping cmap m p) k := by
  unfold addPaperToGrouping
  by_cases hemp : p.branch_terms.isEmpty = true
  · rw [if_pos hemp]
    exact mem_bucketAppend_mono m "uncategorized" k p y hy
  · rw [if_neg hemp]
    exact mem_foldBucket_mono (canonicalizeTag cmap) p p.branch_terms m y k hy

theorem mem_groupFold_mono (cmap : List (String × String)) :
    ∀ (papers : List Paper) (m : List (String × List Paper)) (y : Paper) (k : String),
      y ∈ bucketOf m k →
      y ∈ bucketOf (papers.foldl (addPaperToGrouping cmap) m) k := by
  intro papers
  induction papers with
  | nil => intro m y k hy; exact hy
  | cons p ps ih =>
    intro m y k hy
    rw [List.foldl_cons]
    exact ih _ y k (mem_addPaper_mono cmap m p y k hy)

theorem addPaper_empty_mem (cmap : List (String × String)) (m : List (String × List Paper))
    (p : Paper) (hemp : p.branch_terms = []) :
    p ∈ bucketOf (addPaperToGrouping cmap m p) "uncategorized" := by
  unfold addPaperToGrouping
  rw [if_pos (by rw [hemp]; rfl)]
  exact mem_bucketAppend_self m "uncategorized" p

theorem addPaper_nonempty_inv (cmap : List (String × String)) (m : List (String × List Paper))
    (p : Paper)
    (hm : ∀ k, k ≠ "uncategorized" → ∀ q ∈ bucketOf m k, q.branch_terms ≠ []) :
    ∀ k, k ≠ "uncategorized" →
      ∀ q ∈ bucketOf (addPaperToGrouping cmap m p) k, q.branch_terms ≠ [] := by
  intro k hk q hq
  unfold addPaperToGrouping at hq
  by_cases hemp : p.branch_terms.isEmpty = true
  · rw [if_pos hemp] at hq
    rcases mem_bucketAppend_inv m "uncategorized" k p q hq with h | h
    · exact hm k hk q h
    · exact absurd h.2 hk
  · rw [if_neg hemp] at hq
    rcases mem_foldBucket_inv (canonicalizeTag cmap) p p.branch_terms m q k hq with h | h
    · exact hm k hk q h
    · rw [h]
      exact fun hnil => hemp (by rw [hnil]; rfl)

theorem groupFold_nonempty_inv (cmap : List (String × String)) :
    ∀ (papers : List Paper) (m : List (String × List Paper)),
      (∀ k, k ≠ "uncategorized" → ∀ q ∈ bucketOf m k, q.branch_terms ≠ []) →
      ∀ k, k ≠ "uncategorized" →
        ∀ q ∈ bucketOf (papers.foldl (addPaperToGrouping cmap) m) k, q.branch_terms ≠ [] := by
  intro papers
  induction papers with
  | nil => intro m hm; exact hm
  | cons p ps ih =>
    intro m hm
    rw [List.foldl_cons]
    exact ih _ (addPaper_nonempty_inv cmap m p hm)

theorem countId_cons (p : Paper) (l : List Paper) (v : PaperId) :
    countId (p :: l) v = countId l v + (if p.id = some v then 1 else 0) := by
  unfold countId
  rw [List.countP_cons]
  congr 1
  by_cases h : p.id = some v <;> simp [h]

/-- An identifier already marked as seen never reappears in the output. -/
theorem dedupGo_count_seen : ∀ (l : List Paper) (seen : List PaperId) (v : PaperId),
    pyTruthyId v = true → v ∈ seen → countId (dedupGo seen l) v = 0 := by
  intro l
  induction l with
  | nil => intro seen v _ _; rfl
  | cons p ps ih =>
    intro seen v htr hv
    cases hid : p.id with
    | none =>
      rw [dedupGo_cons_noid seen p ps hid, countId_cons,
        if_neg (by rw [hid]; simp), ih seen v htr hv]
    | some w =>
      by_cases hwt : pyTruthyId w = true
      · by_cases hw : w ∈ seen
        · rw [dedupGo_cons_seen seen p ps w hid hwt hw]
          exact ih seen v htr hv
        · have hwv : ¬(p.id = some v) := by
            rw [hid]
            intro hc
            exact hw ((Option.some.inj hc) ▸ hv)
          rw [dedupGo_cons_new seen p ps w hid hwt hw, countId_cons, if_neg hwv,
            ih (w :: seen) v htr (List.mem_cons_of_mem w hv)]
      · have hwv : ¬(p.id = some v) := by
          rw [hid]
          intro hc
          rw [Option.some.inj hc] at hwt
          exact hwt htr
        rw [dedupGo_cons_falsy seen p ps w hid (by simpa using hwt), countId_cons,
          if_neg hwv, ih seen v htr hv]

/-- A truthy identifier not yet seen appears in the output exactly once when
present in the input, and not at all when absent. -/
theorem dedupGo_count_notmem : ∀ (l : List Paper) (seen : List PaperId) (v : PaperId),
    pyTruthyId v = true → v ∉ seen →
    ((∃ p ∈ l, p.id = some v) → countId (dedupGo seen l) v = 1)
      ∧ ((∀ p ∈ l, p.id ≠ some v) → countId (dedupGo seen l) v = 0) := by
  intro l
  induction l with
  | nil =>
    intro seen v htr hv
    constructor
    · rintro ⟨p, hp, -⟩
      simp at hp
    · intro _
      rfl
  | cons p ps ih =>
    intro seen v htr hv
    by_cases hpv : p.id = some v
    · constructor
      · intro _
        rw [dedupGo_cons_new seen p ps v hpv htr hv, countId_cons, if_pos hpv,
          dedupGo_count_seen ps (v :: seen) v htr (List.mem_cons_self v seen)]
      · intro hall
        exact absurd hpv (hall p (List.mem_cons_self p ps))
    · cases hid : p.id with
      | none =>
        rw [dedupGo_cons_noid seen p ps hid]
        constructor
        · rintro ⟨q, hq, hqv⟩
          rcases List.mem_cons.mp hq with rfl | hq'
          · exact absurd hqv hpv
          · rw [countId_cons, if_neg hpv, (ih seen v htr hv).1 ⟨q, hq', hqv⟩]
        · intro hall
          rw [countId_cons, if_neg hpv,
            (ih seen v htr hv).2 (fun q hq => hall q (List.mem_cons_of_mem p hq))]
      | some w =>
        by_cases hwt : pyTruthyId w = true
        · by_cases hw : w ∈ seen
          · rw [dedupGo_cons_seen seen p ps w hid hwt hw]
            constructor
            · rintro ⟨q, hq, hqv⟩
              rcases List.mem_cons.mp hq with rfl | hq'
              · exact absurd hqv hpv
              · exact (ih seen v htr hv).1 ⟨q, hq', hqv⟩
            · intro hall
              exact (ih seen v htr hv).2 (fun q hq => hall q (List.mem_cons_of_mem p hq))
          · rw [dedupGo_cons_new seen p ps w hid hwt hw]
            have hv' : v ∉ w :: seen := by
              intro hc
              rcases List.mem_cons.mp hc with rfl | hc'
              · exact hpv hid
              · exact hv hc'
            constructor
            · rintro ⟨q, hq, hqv⟩
              rcases List.mem_cons.mp hq with rfl | hq'
              · exact absurd hqv hpv
              · rw [countId_cons, if_neg hpv, (ih (w :: seen) v htr hv').1 ⟨q, hq', hqv⟩]
            · intro hall
              rw [countId_cons, if_neg hpv,
                (ih (w :: seen) v htr hv').2 (fun q hq => hall q (List.mem_cons_of_mem p hq))]
        · rw [dedupGo_cons_falsy seen p ps w hid (by simpa using hwt)]
          constructor
          · rintro ⟨q, hq, hqv⟩
            rcases List.mem_cons.mp hq with rfl | hq'
            · exact absurd hqv hpv
            · rw [countId_cons, if_neg hpv, (ih seen v htr hv).1 ⟨q, hq', hqv⟩]
          · intro hall
            rw [countId_cons, if_neg hpv,
              (ih seen v htr hv).2 (fun q hq => hall q (List.mem_cons_of_mem p hq))]

theorem countP_congr_mem {α : Type} (f g : α → Bool) :
    ∀ (l : List α), (∀ x ∈ l, f x = g x) → l.countP f = l.countP g := by
  intro l
  induction l with
  | nil => intro _; rfl
  | cons a rest ih =>
    intro h
    rw [List.countP_cons, List.countP_cons, h a (List.mem_cons_self a rest),
      ih (fun x hx => h x (List.mem_cons_of_mem a hx))]

/-- **C6.** The claim is false on the code: the fallback id counter restarts
at 1 in every `parse` pass (`id_counter = 1`, ris_parser line 71), so two
query files of one collection can emit *distinct* papers both identified as
`"paper_1"`.  When the tagged paper is curated-matched into a
curated-highlight node, it precedes the empty-tag paper in the
aggregate-highlight input (green papers are collected before the
uncategorized bucket), and the dedup of lines 624–637 then drops the
empty-tag paper: it appears zero times in the payload, not exactly once. -/
theorem c6_counterexample :
    risParse "pubmed" "TI  - A\nRN  - x" = [paperTagged]
      ∧ risParse "pubmed" "TI  - B" = [paperNoTags]
      ∧ paperNoTags.branch_terms = []
      ∧ paperTagged ≠ paperNoTags
      ∧ paperTagged.id = paperNoTags.id
      ∧ dedupById ([paperTagged] ++ [paperNoTags]) = [paperTagged]
      ∧ paperNoTags ∉ dedupById ([paperTagged] ++ [paperNoTags]) := by
  refine ⟨by decide, by decide, by decide, by decide, by decide, by decide, by decide⟩

/-- **C6 (amended).** A parsed paper with an empty tag list is filed under
the reserved `"uncategorized"` bucket of its query's grouping, and every
other bucket holds only papers with a non-empty tag list — so the paper
appears under no other key.  When the collection builds an
aggregate-highlight node, exactly one payload entry carries the paper's
(truthy) identifier, and the paper itself is included exactly once provided
no distinct paper of the payload input shares its identifier — a proviso
that can fail across sibling query files because the `paper_<n>` fallback
counter restarts at each parse pass. -/
theorem c6_amended_uncategorized (papers : List Paper) (p : Paper)
    (hp : p ∈ papers) (hemp : p.branch_terms = []) :
    (p ∈ bucketOf (groupPapers papers) "uncategorized"
      ∧ ∀ k, k ≠ "uncategorized" →
          ∀ q ∈ bucketOf (groupPapers papers) k, q.branch_terms ≠ [])
    ∧ ∀ (green uncat : List Paper) (v : PaperId),
        p ∈ uncat → p.id = some v → pyTruthyId v = true →
        countId (dedupById (green ++ uncat)) v = 1
          ∧ ((∀ q ∈ green ++ uncat, q.id = some v → q = p) →
              (dedupById (green ++ uncat)).countP (fun q => decide (q = p)) = 1) := by
  constructor
  · constructor
    · obtain ⟨l1, l2, hdec⟩ := List.append_of_mem hp
      unfold groupPapers
      rw [hdec, List.foldl_append, List.foldl_cons]
      apply mem_groupFold_mono
      exact addPaper_empty_mem _ _ p hemp
    · apply groupFold_nonempty_inv
      intro k _ q hq
      simp [bucketOf, alookup] at hq
  · intro green uncat v hpu hpid htr
    have h1 : countId (dedupById (green ++ uncat)) v = 1 :=
      (dedupGo_count_notmem (green ++ uncat) [] v htr (by simp)).1
        ⟨p, List.mem_append_right green hpu, hpid⟩
    refine ⟨h1, ?_⟩
    intro huniq
    have hcong : ∀ q ∈ dedupById (green ++ uncat),
        (decide (q = p) : Bool) = decide (q.id = some v) := by
      intro q hq
      have hqin : q ∈ green ++ uncat := (dedupGo_sublist _ []).subset hq
      by_cases hqp : q = p
      · simp [hqp, hpid]
      · have hqid : ¬(q.id = some v) := fun hc => hqp (huniq q hqin hc)
        simp [hqp, hqid]
    rw [countP_congr_mem _ _ _ hcong]
    exact h1

/-- Witness for `c6_amended_uncategorized` at a concrete paper whose
identifier is unique in the payload input. -/
theorem c6_amended_uncategorized_witness :
    paperNoTags ∈ [paperNoTags]
      ∧ paperNoTags.branch_terms = []
      ∧ paperNoTags ∈ bucketOf (groupPapers [paperNoTags]) "uncategorized"
      ∧ (dedupById ([] ++ [paperNoTags])).countP (fun q => decide (q = paperNoTags)) = 1 := by
  refine ⟨by decide, by decide, ?_, ?_⟩
  · exact ((c6_amended_uncategorized [paperNoTags] paperNoTags (by decide) rfl).1).1
  · exact ((c6_amended_uncategorized [paperNoTags] paperNoTags (by decide) rfl).2
      [] [paperNoTags] (.str "paper_1") (by decide) rfl (by decide)).2 (by decide)

/-! ### Curated cross-reference placement (claim C4) -/

/-- `List.find?` returns the first element satisfying the predicate. -/
theorem find?_decomp {α : Type} (f : α → Bool) :
    ∀ (l : List α) (x : α), l.find? f = some x →
      ∃ pre post, l = pre ++ x :: post ∧ f x = true ∧ ∀ y ∈ pre, f y = false := by
  intro l
  induction l with
  | nil => intro x h; simp [List.find?] at h
  | cons a rest ih =>
    intro x h
    cases hf : f a with
    | true =>
      simp only [List.find?, hf] at h
      injection h with hx
      refine ⟨[], rest, by rw [hx]; rfl, ?_, by simp⟩
      rw [← hx]
      exact hf
    | false =>
      simp only [List.find?, hf] at h
      obtain ⟨pre, post, hdec, hfx, hpre⟩ := ih x h
      refine ⟨a :: pre, post, by rw [List.cons_append, ← hdec], hfx, ?_⟩
      intro y hy
      rcases List.mem_cons.mp hy with rfl | hy'
      · exact hf
      · exact hpre y hy'

theorem selectGo_cons_none (counts : List (String × Nat)) (t : String) (ts : List String)
    (mc : Option Nat) (sel : Option String)
    (h : findMatchingCanonical counts (pyLower t) = none) :
    selectGo counts (t :: ts) mc sel = selectGo counts ts mc sel := by
  conv_lhs => rw [selectGo]
  simp only [h]

theorem selectGo_cons_some_lt (counts : List (String × Nat)) (t : String) (ts : List String)
    (mc : Option Nat) (sel : Option String) (k : String)
    (h : findMatchingCanonical counts (pyLower t) = some k)
    (hlt : ltInfB ((alookup k counts).getD 0) mc = true) :
    selectGo counts (t :: ts) mc sel
      = selectGo counts ts (some ((alookup k counts).getD 0)) (some k) := by
  conv_lhs => rw [selectGo]
  simp only [h]
  rw [if_pos hlt]

theorem selectGo_cons_some_ge (counts : List (String × Nat)) (t : String) (ts : List String)
    (mc : Option Nat) (sel : Option String) (k : String)
    (h : findMatchingCanonical counts (pyLower t) = some k)
    (hge : ltInfB ((alookup k counts).getD 0) mc = false) :
    selectGo counts (t :: ts) mc sel = selectGo counts ts mc sel := by
  conv_lhs => rw [selectGo]
  simp only [h]
  rw [if_neg (by simp [hge])]

/-- Characterization of the selection loop when started from a candidate `k`
with bucket count `c`: either the candidate survives (no resolved tag beats
`c`), or the first resolved tag attaining the least count below `c` wins. -/
theorem selectGo_some_char (counts : List (String × Nat)) :
    ∀ (tags : List String) (c : Nat) (k : String), (alookup k counts).getD 0 = c →
      ∀ t, selectGo counts tags (some c) (some k) = some t →
      (t = k ∧ ∀ tg ∈ tags, ∀ k', findMatchingCanonical counts (pyLower tg) = some k' →
          c ≤ (alookup k' counts).getD 0)
      ∨ (∃ pre t0 post, tags = pre ++ t0 :: post
          ∧ findMatchingCanonical counts (pyLower t0) = some t
          ∧ (alookup t counts).getD 0 < c
          ∧ (∀ tg ∈ tags, ∀ k', findMatchingCanonical counts (pyLower tg) = some k' →
              (alookup t counts).getD 0 ≤ (alookup k' counts).getD 0)
          ∧ (∀ tg ∈ pre, ∀ k', findMatchingCanonical counts (pyLower tg) = some k' →
              (alookup t counts).getD 0 < (alookup k' counts).getD 0)) := by
  intro tags
  induction tags with
  | nil =>
    intro c k hck t h
    left
    constructor
    · have h' : (some k : Option String) = some t := h
      injection h' with h''
      exact h''.symm
    · intro tg htg
      simp at htg
  | cons a ts ih =>
    intro c k hck t h
    cases hres : findMatchingCanonical counts (pyLower a) with
    | none =>
      rw [selectGo_cons_none counts a ts _ _ hres] at h
      rcases ih c k hck t h with ⟨h1, h2⟩ | ⟨pre, t0, post, hdec, hres0, hlt, hle, hpre⟩
      · left
        refine ⟨h1, ?_⟩
        intro tg htg k' hk'
        rcases List.mem_cons.mp htg with rfl | htg'
        · rw [hres] at hk'
          exact absurd hk' (by simp)
        · exact h2 tg htg' k' hk'
      · right
        refine ⟨a :: pre, t0, post, by rw [hdec, List.cons_append], hres0, hlt, ?_, ?_⟩
        · intro tg htg k' hk'
          rcases List.mem_cons.mp htg with rfl | htg'
          · rw [hres] at hk'
            exact absurd hk' (by simp)
          · exact hle tg htg' k' hk'
        · intro tg htg k' hk'
          rcases List.mem_cons.mp htg with rfl | htg'
          · rw [hres] at hk'
            exact absurd hk' (by simp)
          · exact hpre tg htg' k' hk'
    | some k0 =>
      by_cases hlt0 : (alookup k0 counts).getD 0 < c
      · rw [selectGo_cons_some_lt counts a ts _ _ k0 hres
          (by simp only [ltInfB, decide_eq_true_eq]; exact hlt0)] at h
        rcases ih ((alookup k0 counts).getD 0) k0 rfl t h with
          ⟨h1, h2⟩ | ⟨pre, t0, post, hdec, hres0, hlt, hle, hpre⟩
        · subst h1
          right
          refine ⟨[], a, ts, rfl, hres, hlt0, ?_, by simp⟩
          intro tg htg k' hk'
          rcases List.mem_cons.mp htg with rfl | htg'
          · rw [hres] at hk'
            injection hk' with hkk
            rw [← hkk]
          · exact h2 tg htg' k' hk'
        · right
          refine ⟨a :: pre, t0, post, by rw [hdec, List.cons_append], hres0,
            lt_trans hlt hlt0, ?_, ?_⟩
          · intro tg htg k' hk'
            rcases List.mem_cons.mp htg with rfl | htg'
            · rw [hres] at hk'
              injection hk' with hkk
              rw [← hkk]
              exact le_of_lt hlt
            · exact hle tg htg' k' hk'
          · intro tg htg k' hk'
            rcases List.mem_cons.mp htg with rfl | htg'
            · rw [hres] at hk'
              injection hk' with hkk
              rw [← hkk]
              exact hlt
            · exact hpre tg htg' k' hk'
      · rw [selectGo_cons_some_ge counts a ts _ _ k0 hres
          (by simp only [ltInfB]; exact decide_eq_false hlt0)] at h
        rcases ih c k hck t h with ⟨h1, h2⟩ | ⟨pre, t0, post, hdec, hres0, hlt, hle, hpre⟩
        · left
          refine ⟨h1, ?_⟩
          intro tg htg k' hk'
          rcases List.mem_cons.mp htg with rfl | htg'
          · rw [hres] at hk'
            injection hk' with hkk
            rw [← hkk]
            exact le_of_not_lt hlt0
          · exact h2 tg htg' k' hk'
        · right
          refine ⟨a :: pre, t0, post, by rw [hdec, List.cons_append], hres0, hlt, ?_, ?_⟩
          · intro tg htg k' hk'
            rcases List.mem_cons.mp htg with rfl | htg'
            · rw [hres] at hk'
              injection hk' with hkk
              rw [← hkk]
              exact le_of_lt (lt_of_lt_of_le hlt (le_of_not_lt hlt0))
            · exact hle tg htg' k' hk'
          · intro tg htg k' hk'
            rcases List.mem_cons.mp htg with rfl | htg'
            · rw [hres] at hk'
              injection hk' with hkk
              rw [← hkk]
              exact lt_of_lt_of_le hlt (le_of_not_lt hlt0)
            · exact hpre tg htg' k' hk'

/-- The tag selected by the loop of `load_most_cited_papers` resolves
case-insensitively to an existing bucket key whose count is least among all
resolved tags, and every tag before its position resolves only to strictly
larger buckets (first-in-list wins ties). -/
theorem selectBranchTerm_char (counts : List (String × Nat)) :
    ∀ (tags : List String) (t : String), selectBranchTerm counts tags = some t →
      ∃ pre t0 post, tags = pre ++ t0 :: post
        ∧ findMatchingCanonical counts (pyLower t0) = some t
        ∧ (∀ tg ∈ tags, ∀ k', findMatchingCanonical counts (pyLower tg) = some k' →
            (alookup t counts).getD 0 ≤ (alookup k' counts).getD 0)
        ∧ (∀ tg ∈ pre, ∀ k', findMatchingCanonical counts (pyLower tg) = some k' →
            (alookup t counts).getD 0 < (alookup k' counts).getD 0) := by
  intro tags
  induction tags with
  | nil =>
    intro t h
    simp [selectBranchTerm, selectGo] at h
  | cons a ts ih =>
    intro t h
    cases hres : findMatchingCanonical counts (pyLower a) with
    | none =>
      rw [show selectBranchTerm counts (a :: ts) = selectGo counts (a :: ts) none none
          from rfl, selectGo_cons_none counts a ts none none hres] at h
      obtain ⟨pre, t0, post, hdec, hres0, hle, hpre⟩ := ih t h
      refine ⟨a :: pre, t0, post, by rw [hdec, List.cons_append], hres0, ?_, ?_⟩
      · intro tg htg k' hk'
        rcases List.mem_cons.mp htg with rfl | htg'
        · rw [hres] at hk'
          exact absurd hk' (by simp)
        · exact hle tg htg' k' hk'
      · intro tg htg k' hk'
        rcases List.mem_cons.mp htg with rfl | htg'
        · rw [hres] at hk'
          exact absurd hk' (by simp)
        · exact hpre tg htg' k' hk'
    | some k0 =>
      rw [show selectBranchTerm counts (a :: ts) = selectGo counts (a :: ts) none none
          from rfl, selectGo_cons_some_lt counts a ts none none k0 hres rfl] at h
      rcases selectGo_some_char counts ts ((alookup k0 counts).getD 0) k0 rfl t h with
        ⟨h1, h2⟩ | ⟨pre, t0, post, hdec, hres0, hlt, hle, hpre⟩
      · subst h1
        refine ⟨[], a, ts, rfl, hres, ?_, by simp⟩
        intro tg htg k' hk'
        rcases List.mem_cons.mp htg with rfl | htg'
        · rw [hres] at hk'
          injection hk' with hkk
          rw [← hkk]
        · exact h2 tg htg' k' hk'
      · refine ⟨a :: pre, t0, post, by rw [hdec, List.cons_append], hres0, ?_, ?_⟩
        · intro tg htg k' hk'
          rcases List.mem_cons.mp htg with rfl | htg'
          · rw [hres] at hk'
            injection hk' with hkk
            rw [← hkk]
            exact le_of_lt hlt
          · exact hle tg htg' k' hk'
        · intro tg htg k' hk'
          rcases List.mem_cons.mp htg with rfl | htg'
          · rw [hres] at hk'
            injection hk' with hkk
            rw [← hkk]
            exact hlt
          · exact hpre tg htg' k' hk'

/-- When the match, the target-query search, and the tag selection all
succeed, the per-item loop files the matched paper into the overlay map at
the selected bucket. -/
theorem processCuratedItem_eq (allPapers : List Paper)
    (hier : List (String × List (String × List Paper)))
    (ov : List (String × List (String × List Paper)))
    (item mp : Paper) (q t : String)
    (hmt : matchPaper allPapers item = some mp)
    (htq : findTargetQuery hier mp = some q)
    (hsel : selectBranchTerm (countsOfQuery hier q) item.branch_terms = some t) :
    processCuratedItem allPapers hier ov item = overlayAppend ov q t mp := by
  have hne : item.branch_terms.isEmpty = false := by
    cases hbt : item.branch_terms with
    | nil =>
      rw [hbt] at hsel
      exact absurd hsel (by simp [selectBranchTerm, selectGo])
    | cons _ _ => rfl
  unfold processCuratedItem
  simp only [hmt, hne, htq, hsel, Bool.false_eq_true, if_false]

/-- **C4.** For a curated item matched to an existing paper — the match
being the first paper in encounter order whose normalized title or DOI
agrees (both sides non-empty) — the matched paper is filed into the overlay
map of the item's target query under the resolved tag whose base-hierarchy
bucket holds the fewest papers among the item's own resolvable tags, ties
broken by the order of the item's own tag list (first wins). -/
theorem c4_curated_placement (allPapers : List Paper)
    (hier : List (String × List (String × List Paper)))
    (ov : List (String × List (String × List Paper)))
    (item mp : Paper) (q t : String)
    (hmt : matchPaper allPapers item = some mp)
    (htq : findTargetQuery hier mp = some q)
    (hsel : selectBranchTerm (countsOfQuery hier q) item.branch_terms = some t) :
    processCuratedItem allPapers hier ov item = overlayAppend ov q t mp
    ∧ (∃ pre post, allPapers = pre ++ mp :: post ∧ paperMatchB item mp = true
        ∧ ∀ y ∈ pre, paperMatchB item y = false)
    ∧ (∃ pre t0 post, item.branch_terms = pre ++ t0 :: post
        ∧ findMatchingCanonical (countsOfQuery hier q) (pyLower t0) = some t
        ∧ (∀ tg ∈ item.branch_terms, ∀ k',
            findMatchingCanonical (countsOfQuery hier q) (pyLower tg) = some k' →
            (alookup t (countsOfQuery hier q)).getD 0
              ≤ (alookup k' (countsOfQuery hier q)).getD 0)
        ∧ (∀ tg ∈ pre, ∀ k',
            findMatchingCanonical (countsOfQuery hier q) (pyLower tg) = some k' →
            (alookup t (countsOfQuery hier q)).getD 0
              < (alookup k' (countsOfQuery hier q)).getD 0)) := by
  refine ⟨processCuratedItem_eq allPapers hier ov item mp q t hmt htq hsel, ?_, ?_⟩
  · exact find?_decomp _ allPapers mp hmt
  · exact selectBranchTerm_char (countsOfQuery hier q) item.branch_terms t hsel

/-- Witness for `c4_curated_placement`: a curated item matching an existing
paper by DOI only (titles differ, spec Scenario C), whose tags resolve to
the buckets `"Radiology"` (1 paper) and `"CT"` (0 papers); the paper is
filed under `"CT"`. -/
theorem c4_curated_placement_witness :
    matchPaper [paperAlpha] itemCurated = some paperAlpha
    ∧ processCuratedItem [paperAlpha] hierSample [] itemCurated
        = overlayAppend [] "q1" "CT" paperAlpha
    ∧ overlayAppend [] "q1" "CT" paperAlpha = [("q1", [("CT", [paperAlpha])])] := by
  refine ⟨by decide, ?_, by decide⟩
  exact (c4_curated_placement [paperAlpha] hierSample [] itemCurated paperAlpha
    "q1" "CT" (by decide) (by decide) (by decide)).1

end LitReview
